import Mathlib

/-!
Verification of the voice-command dataset pipeline.

Shallow embedding of the per-clip processing pipeline of this repository:
activity segmentation, segment selection (policy + minimum-duration
admission), fixed-shape feature normalization, and the stratified
train/test split.  Waveform samples are rational numbers; sample indices
are naturals; Python slices become `List.drop`/`List.take`.

Source locations are cited next to each definition.  Components realized
by external libraries (librosa, scikit-learn) and therefore absent from
the repository sources are modelled from the specification; their doc
comments say so explicitly.
-/

namespace VoicePipeline

/-- Source constant `SAMPLE_RATE = 16000` (LayDataSet.py line 34,
train_ver3.py line 23). -/
def SAMPLE_RATE : ℕ := 16000

/-- Source constant `N_MFCC = 40`, the number of mel bands
(train_ver3.py line 24). -/
def N_MFCC : ℕ := 40

/-- Source constant `MAX_LEN = 64`, the target frame count
(train_ver3.py line 25). -/
def MAX_LEN : ℕ := 64

/-- Python slice `y[s:e]` for natural indices `s ≤ e`:
drop the first `s` samples, keep at most `e - s` of the rest. -/
def slice (y : List ℚ) (s e : ℕ) : List ℚ :=
  (y.drop s).take (e - s)

/-- The selection policy, source value `self.method` which is either the
string `longest` or the string `concat` (LayDataSet.py line 49). -/
inductive Policy where
  | longest : Policy
  | concat : Policy
deriving DecidableEq

/-- Descending comparison used by `lengths.sort(reverse=True)` on triples
`(end-start, start, end)` (LayDataSet.py lines 185-186, 259-260):
`lexGE a b` states that `a` is lexicographically at least `b`. -/
def lexGE (a b : ℕ × ℕ × ℕ) : Prop :=
  b.1 < a.1 ∨ (b.1 = a.1 ∧ (b.2.1 < a.2.1 ∨ (b.2.1 = a.2.1 ∧ b.2.2 ≤ a.2.2)))

instance : DecidableRel lexGE := fun a b => by
  unfold lexGE; exact inferInstance

instance : IsTotal (ℕ × ℕ × ℕ) lexGE :=
  ⟨by intro a b; unfold lexGE; omega⟩

instance : IsTrans (ℕ × ℕ × ℕ) lexGE :=
  ⟨by intro a b c; unfold lexGE; omega⟩

instance : IsRefl (ℕ × ℕ × ℕ) lexGE :=
  ⟨by intro a; unfold lexGE; omega⟩

/-- The `longest` branch of the selector (LayDataSet.py lines 184-187 and
258-261): build the triples `(end-start, start, end)`, sort them in
descending lexicographic order as Python `sort(reverse=True)` does, and
take the first element.  The default `(0,0,0)` is never reached: both
call sites guard on a non-empty interval list. -/
def pickLongest (intervals : List (ℕ × ℕ)) : ℕ × ℕ × ℕ :=
  (List.insertionSort lexGE
    (intervals.map (fun p => (p.2 - p.1, p.1, p.2)))).headD (0, 0, 0)

/-- Model of `np.concatenate`: it raises a `ValueError` when handed an
empty list of arrays, embedded here as `none`. -/
def npConcatenate (parts : List (List ℚ)) : Option (List ℚ) :=
  if parts = [] then none else some parts.flatten

/-- The policy branch of the selector (LayDataSet.py lines 184-191 and
258-265): for `longest` slice the chosen interval out of the waveform,
for `concat` concatenate the slices of all intervals in list order. -/
def selectSegment (method : Policy) (y : List ℚ) (intervals : List (ℕ × ℕ)) :
    List ℚ :=
  match method with
  | .longest => slice y (pickLongest intervals).2.1 (pickLongest intervals).2.2
  | .concat => (intervals.map (fun p => slice y p.1 p.2)).flatten

/-- The policy branch with the `np.concatenate` empty-input failure kept
explicit: `none` marks the error the library call would raise on an empty
list of parts. -/
def selectSegmentChecked (method : Policy) (y : List ℚ)
    (intervals : List (ℕ × ℕ)) : Option (List ℚ) :=
  match method with
  | .longest =>
      some (slice y (pickLongest intervals).2.1 (pickLongest intervals).2.2)
  | .concat => npConcatenate (intervals.map (fun p => slice y p.1 p.2))

/-- The preview-path selector `DatasetBuilder._prepare_processed`
(LayDataSet.py lines 180-196), given the interval list: an empty interval
list yields the empty segment at once; otherwise the policy branch runs
and the result is discarded (replaced by the empty segment) when its
duration `len(processed)/SAMPLE_RATE` is strictly below `min_duration`. -/
def prepareProcessed (method : Policy) (minDur : ℚ) (y : List ℚ)
    (intervals : List (ℕ × ℕ)) : List ℚ :=
  if intervals.length = 0 then []
  else
    let proc := selectSegment method y intervals
    if ((proc.length : ℚ) / (SAMPLE_RATE : ℚ)) < minDur then [] else proc

/-- The preview-path selector with the `np.concatenate` failure kept
explicit, for the totality argument. -/
def prepareProcessedChecked (method : Policy) (minDur : ℚ) (y : List ℚ)
    (intervals : List (ℕ × ℕ)) : Option (List ℚ) :=
  if intervals.length = 0 then some []
  else
    match selectSegmentChecked method y intervals with
    | none => none
    | some proc =>
        some (if ((proc.length : ℚ) / (SAMPLE_RATE : ℚ)) < minDur then []
              else proc)

/-- Modelled from the spec: the squared peak amplitude of a waveform.
The activity detector `librosa.effects.split` (LayDataSet.py lines 178
and 254) is an external library call whose source is not part of this
repository; the spec describes its decibel scale as relative to the
waveform peak amplitude.  Squared magnitudes avoid square roots. -/
def peakSq (y : List ℚ) : ℚ :=
  (y.map (fun x => x * x)).foldr max 0

/-- Modelled from the spec: the mean of squares (squared RMS) of analysis
frame `f`, covering samples `[f*hop, f*hop + frameLen)` of the waveform. -/
def frameRmsSq (frameLen hop : ℕ) (y : List ℚ) (f : ℕ) : ℚ :=
  (((slice y (f * hop) (f * hop + frameLen)).map (fun x => x * x)).sum) /
    (frameLen : ℚ)

/-- Modelled from the spec: the number of analysis frames of a waveform of
`n` samples at hop `hop`, one frame per hop-aligned start position below
`n` (so `⌈n / hop⌉` frames). -/
def numFrames (hop n : ℕ) : ℕ :=
  (n + hop - 1) / hop

/-- Modelled from the spec: whether an analysis frame is active.  The
decibel level `20*log10(rms/peak)` is within `topDb` of the peak exactly
when `rmsSq ≥ ratio * peakSq` where `ratio = 10^(-topDb/10)`; the
threshold is carried multiplicatively as `ratio` so everything stays
rational (`topDb > 0` corresponds to `0 < ratio < 1`).  The floor applied
to silent input makes a zero-peak waveform have no active frame. -/
def frameActive (ratio : ℚ) (frameLen hop : ℕ) (y : List ℚ) (f : ℕ) : Bool :=
  decide (peakSq y ≠ 0 ∧ ratio * peakSq y ≤ frameRmsSq frameLen hop y f)

/-- Modelled from the spec: the per-frame activity flags of a waveform. -/
def activeFlags (ratio : ℚ) (frameLen hop : ℕ) (y : List ℚ) : List Bool :=
  (List.range (numFrames hop y.length)).map (frameActive ratio frameLen hop y)

/-- Modelled from the spec: merge consecutive active frames into maximal
runs `(startFrame, endFrameExclusive)`; `i` is the index of the first
flag of the remaining list. -/
def frameRuns (i : ℕ) : List Bool → List (ℕ × ℕ)
  | [] => []
  | b :: rest =>
    if b then
      match frameRuns (i + 1) rest with
      | [] => [(i, i + 1)]
      | (s, e) :: tail =>
          if s = i + 1 then (i, e) :: tail else (i, i + 1) :: (s, e) :: tail
    else frameRuns (i + 1) rest

/-- Modelled from the spec: the activity detector `librosa.effects.split`
(an external library call, LayDataSet.py lines 178 and 254): frame-level
activity flags, maximal runs of active frames, frame indices converted
back to sample indices via the hop size, end clipped to the waveform
length. -/
def detect (ratio : ℚ) (frameLen hop : ℕ) (y : List ℚ) : List (ℕ × ℕ) :=
  (frameRuns 0 (activeFlags ratio frameLen hop y)).map
    (fun p => (p.1 * hop, min (p.2 * hop) y.length))

/-- One iteration of the batch loop `DatasetBuilder._process_label`
(LayDataSet.py lines 252-271), with file I/O abstracted away: the
interval-producing library call is passed as `split`; `none` means the
file is skipped (no activity, or processed audio shorter than the
minimum duration), `some proc` means `proc` is written to the dataset. -/
def processOne (split : List ℚ → List (ℕ × ℕ)) (method : Policy)
    (minDur : ℚ) (y : List ℚ) : Option (List ℚ) :=
  let intervals := split y
  if intervals.length = 0 then none
  else
    let proc := selectSegment method y intervals
    if ((proc.length : ℚ) / (SAMPLE_RATE : ℚ)) < minDur then none else some proc

/-- One iteration of the batch loop with the `np.concatenate` failure kept
explicit: the outer `none` is the library error, `some none` a skipped
file, `some (some proc)` a kept file. -/
def processOneChecked (split : List ℚ → List (ℕ × ℕ)) (method : Policy)
    (minDur : ℚ) (y : List ℚ) : Option (Option (List ℚ)) :=
  let intervals := split y
  if intervals.length = 0 then some none
  else
    match selectSegmentChecked method y intervals with
    | none => none
    | some proc =>
        some (if ((proc.length : ℚ) / (SAMPLE_RATE : ℚ)) < minDur then none
              else some proc)

/-- The batch loop `DatasetBuilder._process_label` over the waveforms of
one label (LayDataSet.py lines 250-271): the processed segments that are
actually written to the dataset folder, in file order. -/
def processLabel (split : List ℚ → List (ℕ × ℕ)) (method : Policy)
    (minDur : ℚ) (ys : List (List ℚ)) : List (List ℚ) :=
  ys.filterMap (processOne split method minDur)

/-- Frame-axis normalization of one mel band (train_ver3.py lines 127-131,
test_ver3.py lines 112-116): a row shorter than `MAX_LEN` is right-padded
with zeros, a longer one is truncated to its first `MAX_LEN` entries. -/
def padTruncRow (row : List ℚ) : List ℚ :=
  if row.length < MAX_LEN then row ++ List.replicate (MAX_LEN - row.length) 0
  else row.take MAX_LEN

/-- Modelled from the spec: the spectral transform
(`librosa.feature.melspectrogram` followed by `librosa.power_to_db`,
external library calls at train_ver3.py lines 116-124 and test_ver3.py
lines 102-110) yields a `(bands × actualFrames)` matrix — here a list of
`N_MFCC` rows, one per mel band — and an empty segment has zero analysis
frames.  `SpectralTransform t` states that `t` is such a transform. -/
def SpectralTransform (t : List ℚ → List (List ℚ)) : Prop :=
  (∀ seg, (t seg).length = N_MFCC) ∧ (∀ row ∈ t [], row = [])

/-- The feature extraction step (train_ver3.py lines 116-133): the
spectral transform followed by per-band frame normalization. -/
def extract (t : List ℚ → List (List ℚ)) (seg : List ℚ) : List (List ℚ) :=
  (t seg).map padTruncRow

/-- A concrete transform satisfying `SpectralTransform`, used to
instantiate theorems at closed inputs: every band carries the squared
samples of the segment, one frame per sample. -/
def sqTransform (seg : List ℚ) : List (List ℚ) :=
  List.replicate N_MFCC (seg.map (fun x => x * x))

/-- Modelled from the spec: the within-label split of the stratified
train/test partition realized by `sklearn.model_selection.train_test_split`
(an external library call, train_ver3.py lines 167-168): from one label
group of examples, hold out `⌊testFrac * count⌋` examples and train on the
remainder.  Returns `(train, heldOut)`. -/
def splitGroup (testFrac : ℚ) (g : List α) : List α × List α :=
  let nTest := (Int.floor (testFrac * (g.length : ℚ))).toNat
  (g.drop nTest, g.take nTest)

/-- Modelled from the spec: the stratified split
(`train_test_split(..., random_state=42, stratify=Y)`, an external
library call, train_ver3.py lines 167-168): permute each label group
with the seed-determined permutation `perm`, split each group with
`splitGroup`, and concatenate the per-label parts.
Returns `(train, heldOut)`. -/
def stratifiedSplit (testFrac : ℚ) (perm : List α → List α)
    (groups : List (List α)) : List α × List α :=
  ((groups.map (fun g => (splitGroup testFrac (perm g)).1)).flatten,
   (groups.map (fun g => (splitGroup testFrac (perm g)).2)).flatten)

/-- Stated from the spec for claim C4 (refinement comparison): the
waveform slices of the intervals concatenated in ascending start-position
order. -/
def ascendingConcat (y : List ℚ) (ivs : List (ℕ × ℕ)) : List ℚ :=
  ((List.insertionSort (fun a b : ℕ × ℕ => a.1 ≤ b.1) ivs).map
    (fun p => slice y p.1 p.2)).flatten

/-- A concrete 15-sample waveform used to instantiate theorems at closed
inputs: samples 0, 1, ..., 14. -/
def sampleWave : List ℚ :=
  (List.range 15).map (fun n => (n : ℚ))

theorem slice_length (y : List ℚ) (s e : ℕ) :
    (slice y s e).length = min (e - s) (y.length - s) := by
  simp [slice]

theorem slice_length_of_wf (y : List ℚ) {s e : ℕ} (h1 : s < e)
    (h2 : e ≤ y.length) : (slice y s e).length = e - s := by
  rw [slice_length]; omega

theorem slice_ne_nil (y : List ℚ) {s e : ℕ} (h1 : s < e) (h2 : e ≤ y.length) :
    slice y s e ≠ [] := by
  intro hnil
  have := slice_length_of_wf y h1 h2
  rw [hnil] at this
  simp at this
  omega

theorem lexGE_refl (a : ℕ × ℕ × ℕ) : lexGE a a := by
  unfold lexGE; omega

theorem pickLongest_spec (ivs : List (ℕ × ℕ)) (hne : ivs ≠ []) :
    ∃ s e, (s, e) ∈ ivs ∧ pickLongest ivs = (e - s, s, e) ∧
      ∀ p ∈ ivs, lexGE (e - s, s, e) (p.2 - p.1, p.1, p.2) := by
  unfold pickLongest
  set keys := ivs.map (fun p => (p.2 - p.1, p.1, p.2)) with hkeys
  have hkne : keys ≠ [] := by
    simpa [hkeys] using hne
  have hlen : (List.insertionSort lexGE keys).length = keys.length :=
    List.length_insertionSort lexGE keys
  have hne2 : List.insertionSort lexGE keys ≠ [] := by
    intro h
    rw [h] at hlen
    exact hkne (List.length_eq_zero.mp hlen.symm)
  obtain ⟨h0, t0, hs⟩ := List.exists_cons_of_ne_nil hne2
  have hmem : h0 ∈ keys := by
    have : h0 ∈ List.insertionSort lexGE keys := by
      rw [hs]; exact List.mem_cons_self h0 t0
    exact (List.mem_insertionSort lexGE).mp this
  obtain ⟨p, hp, hfp⟩ := List.mem_map.mp hmem
  have hsorted : List.Sorted lexGE (h0 :: t0) := by
    rw [← hs]; exact List.sorted_insertionSort lexGE keys
  refine ⟨p.1, p.2, hp, ?_, ?_⟩
  · rw [hs, List.headD_cons, ← hfp]
  · intro q hq
    have hqk : (q.2 - q.1, q.1, q.2) ∈ keys := by
      rw [hkeys]; exact List.mem_map_of_mem _ hq
    have hqs : (q.2 - q.1, q.1, q.2) ∈ h0 :: t0 := by
      rw [← hs]; exact (List.mem_insertionSort lexGE).mpr hqk
    have hh0 : h0 = (p.2 - p.1, p.1, p.2) := hfp.symm
    rcases List.mem_cons.mp hqs with heq | hmem2
    · rw [← hh0, heq]; exact lexGE_refl h0
    · rw [← hh0]; exact List.rel_of_sorted_cons hsorted _ hmem2

/-- Claim C1 (amended): for every non-empty well-formed interval list, the
`longest` policy returns the waveform slice of an interval whose sample
span is maximal, and when two or more intervals tie for the greatest span
the interval with the LATEST start position is chosen (the Python
`sort(reverse=True)` on `(end-start, start, end)` triples orders ties by
descending start). -/
theorem selectLongest_max_span_latest_start (y : List ℚ)
    (ivs : List (ℕ × ℕ)) (hne : ivs ≠ [])
    (hwf : ∀ p ∈ ivs, p.1 < p.2) :
    ∃ s e, (s, e) ∈ ivs ∧
      selectSegment Policy.longest y ivs = slice y s e ∧
      (∀ p ∈ ivs, p.2 - p.1 ≤ e - s) ∧
      (∀ p ∈ ivs, p.2 - p.1 = e - s → p.1 ≤ s) := by
  obtain ⟨s, e, hmem, hpick, hmax⟩ := pickLongest_spec ivs hne
  have _ := hwf
  refine ⟨s, e, hmem, ?_, ?_, ?_⟩
  · simp [selectSegment, hpick]
  · intro p hp
    have h := hmax p hp
    simp only [lexGE] at h
    omega
  · intro p hp htie
    have h := hmax p hp
    simp only [lexGE] at h
    omega

/-- Claim C1 is false as stated: on the 15-sample waveform with the two
intervals `(0,5)` and `(10,15)`, both of span 5, the `longest` policy
returns the slice of the later interval (start 10), not the slice of the
earliest-start interval (start 0). -/
theorem selectLongest_earliest_tie_counterexample :
    selectSegment Policy.longest sampleWave [(0, 5), (10, 15)] =
      slice sampleWave 10 15 ∧
    slice sampleWave 10 15 ≠ slice sampleWave 0 5 := by
  constructor
  · rfl
  · decide

/-- Witness for the amended claim C1 at a closed input. -/
theorem selectLongest_max_span_latest_start_witness :
    (([(0, 3), (5, 9)] : List (ℕ × ℕ)) ≠ [] ∧
      ∀ p ∈ ([(0, 3), (5, 9)] : List (ℕ × ℕ)), p.1 < p.2) ∧
    (∃ s e, (s, e) ∈ ([(0, 3), (5, 9)] : List (ℕ × ℕ)) ∧
      selectSegment Policy.longest sampleWave [(0, 3), (5, 9)] =
        slice sampleWave s e ∧
      (∀ p ∈ ([(0, 3), (5, 9)] : List (ℕ × ℕ)), p.2 - p.1 ≤ e - s) ∧
      (∀ p ∈ ([(0, 3), (5, 9)] : List (ℕ × ℕ)),
        p.2 - p.1 = e - s → p.1 ≤ s)) :=
  ⟨⟨by decide, by decide⟩,
    selectLongest_max_span_latest_start sampleWave [(0, 3), (5, 9)]
      (by decide) (by decide)⟩

theorem selectSegment_ne_nil (m : Policy) (y : List ℚ)
    (ivs : List (ℕ × ℕ)) (hne : ivs ≠ [])
    (hwf : ∀ p ∈ ivs, p.1 < p.2 ∧ p.2 ≤ y.length) :
    selectSegment m y ivs ≠ [] := by
  cases m with
  | longest =>
      obtain ⟨s, e, hmem, hpick, _⟩ := pickLongest_spec ivs hne
      have hw := hwf (s, e) hmem
      simp only [selectSegment, hpick]
      exact slice_ne_nil y hw.1 hw.2
  | concat =>
      obtain ⟨p, t, hpt⟩ := List.exists_cons_of_ne_nil hne
      have hw := hwf p (by rw [hpt]; exact List.mem_cons_self p t)
      simp only [selectSegment]
      intro hnil
      rw [List.flatten_eq_nil_iff] at hnil
      exact slice_ne_nil y hw.1 hw.2
        (hnil _ (List.mem_map_of_mem _ (by rw [hpt]; exact List.mem_cons_self p t)))

/-- Claim C2: for every policy, minimum duration, waveform and
well-formed interval list, the selector yields the empty segment exactly
when the interval list is empty or when the selected segment's duration
`sampleCount / SAMPLE_RATE` is strictly below the minimum duration; in
every other case the selected segment is returned unchanged. -/
theorem prepareProcessed_empty_iff (m : Policy) (d : ℚ) (y : List ℚ)
    (ivs : List (ℕ × ℕ))
    (hwf : ∀ p ∈ ivs, p.1 < p.2 ∧ p.2 ≤ y.length) :
    (prepareProcessed m d y ivs = [] ↔
      ivs = [] ∨
        ((selectSegment m y ivs).length : ℚ) / (SAMPLE_RATE : ℚ) < d) ∧
    (ivs ≠ [] →
      ¬ ((selectSegment m y ivs).length : ℚ) / (SAMPLE_RATE : ℚ) < d →
      prepareProcessed m d y ivs = selectSegment m y ivs) := by
  by_cases hne : ivs = []
  · subst hne
    simp [prepareProcessed]
  · have hlen : ivs.length ≠ 0 := by
      simpa [List.length_eq_zero] using hne
    by_cases hdur :
        ((selectSegment m y ivs).length : ℚ) / (SAMPLE_RATE : ℚ) < d
    · constructor
      · simp [prepareProcessed, hlen, hdur]
      · intro _ hcon
        exact absurd hdur hcon
    · constructor
      · simp only [prepareProcessed, if_neg hlen]
        simp only [if_neg hdur]
        constructor
        · intro hnil
          exact absurd hnil (selectSegment_ne_nil m y ivs hne hwf)
        · intro h
          rcases h with h | h
          · exact absurd h hne
          · exact absurd h hdur
      · intro _ _
        simp [prepareProcessed, hlen, hdur]

/-- Witness for claim C2 at a closed input. -/
theorem prepareProcessed_empty_iff_witness :
    (∀ p ∈ ([(0, 5), (10, 15)] : List (ℕ × ℕ)),
      p.1 < p.2 ∧ p.2 ≤ sampleWave.length) ∧
    ((prepareProcessed Policy.longest 1 sampleWave [(0, 5), (10, 15)] = [] ↔
      ([(0, 5), (10, 15)] : List (ℕ × ℕ)) = [] ∨
        ((selectSegment Policy.longest sampleWave
            [(0, 5), (10, 15)]).length : ℚ) / (SAMPLE_RATE : ℚ) < 1) ∧
    (([(0, 5), (10, 15)] : List (ℕ × ℕ)) ≠ [] →
      ¬ ((selectSegment Policy.longest sampleWave
            [(0, 5), (10, 15)]).length : ℚ) / (SAMPLE_RATE : ℚ) < 1 →
      prepareProcessed Policy.longest 1 sampleWave [(0, 5), (10, 15)] =
        selectSegment Policy.longest sampleWave [(0, 5), (10, 15)])) :=
  ⟨by decide,
    prepareProcessed_empty_iff Policy.longest 1 sampleWave
      [(0, 5), (10, 15)] (by decide)⟩

/-- Claim C4: for every waveform and non-empty, well-formed, start-sorted
interval list, the `concat` policy returns a segment whose length is the
sum of the interval spans and whose content is the interval slices
concatenated in ascending start-position order. -/
theorem selectConcat_sum_and_order (y : List ℚ) (ivs : List (ℕ × ℕ))
    (hne : ivs ≠ [])
    (hwf : ∀ p ∈ ivs, p.1 < p.2 ∧ p.2 ≤ y.length)
    (hsort : List.Sorted (fun a b : ℕ × ℕ => a.1 ≤ b.1) ivs) :
    (selectSegment Policy.concat y ivs).length =
      (ivs.map (fun p => p.2 - p.1)).sum ∧
    selectSegment Policy.concat y ivs = ascendingConcat y ivs := by
  have _ := hne
  constructor
  · simp only [selectSegment, List.length_flatten, List.map_map]
    congr 1
    apply List.map_congr_left
    intro p hp
    have hw := hwf p hp
    simp [slice_length_of_wf y hw.1 hw.2]
  · simp only [selectSegment, ascendingConcat]
    rw [List.Sorted.insertionSort_eq hsort]

/-- Witness for claim C4 at a closed input. -/
theorem selectConcat_sum_and_order_witness :
    (([(0, 3), (5, 9)] : List (ℕ × ℕ)) ≠ [] ∧
      (∀ p ∈ ([(0, 3), (5, 9)] : List (ℕ × ℕ)),
        p.1 < p.2 ∧ p.2 ≤ sampleWave.length) ∧
      List.Sorted (fun a b : ℕ × ℕ => a.1 ≤ b.1) [(0, 3), (5, 9)]) ∧
    ((selectSegment Policy.concat sampleWave [(0, 3), (5, 9)]).length =
      (([(0, 3), (5, 9)] : List (ℕ × ℕ)).map (fun p => p.2 - p.1)).sum ∧
    selectSegment Policy.concat sampleWave [(0, 3), (5, 9)] =
      ascendingConcat sampleWave [(0, 3), (5, 9)]) :=
  ⟨⟨by decide, by decide, by decide⟩,
    selectConcat_sum_and_order sampleWave [(0, 3), (5, 9)]
      (by decide) (by decide) (by decide)⟩

theorem selectSegmentChecked_eq (m : Policy) (y : List ℚ)
    (ivs : List (ℕ × ℕ)) (hne : ivs ≠ []) :
    selectSegmentChecked m y ivs = some (selectSegment m y ivs) := by
  cases m with
  | longest => rfl
  | concat =>
      simp only [selectSegmentChecked, selectSegment, npConcatenate]
      rw [if_neg]
      simpa using hne

/-- Claim C10: in both the preview path and the batch path the
empty-interval case is handled before the policy branch, so the
`np.concatenate` call in the `concat` branch never receives an empty list
of parts and the per-clip computation is total: the checked embeddings,
in which the library failure is an explicit `none`, always succeed and
agree with the total embeddings. -/
theorem checked_paths_total (split : List ℚ → List (ℕ × ℕ)) (m : Policy)
    (d : ℚ) (y : List ℚ) (ivs : List (ℕ × ℕ)) :
    prepareProcessedChecked m d y ivs = some (prepareProcessed m d y ivs) ∧
    processOneChecked split m d y = some (processOne split m d y) := by
  constructor
  · by_cases hlen : ivs.length = 0
    · simp [prepareProcessedChecked, prepareProcessed, hlen]
    · have hne : ivs ≠ [] := by
        simpa [List.length_eq_zero] using hlen
      simp [prepareProcessedChecked, prepareProcessed, hlen,
        selectSegmentChecked_eq m y ivs hne]
  · by_cases hlen : (split y).length = 0
    · simp [processOneChecked, processOne, hlen]
    · have hne : split y ≠ [] := by
        simpa [List.length_eq_zero] using hlen
      simp only [processOneChecked, processOne, if_neg hlen,
        selectSegmentChecked_eq m y (split y) hne]

theorem padTruncRow_spec (row : List ℚ) :
    (padTruncRow row).length = MAX_LEN ∧
    ∀ j < MAX_LEN, (padTruncRow row).getD j 0 =
      if j < row.length then row.getD j 0 else 0 := by
  unfold padTruncRow
  by_cases h : row.length < MAX_LEN
  · rw [if_pos h]
    constructor
    · simp
      omega
    · intro j hj
      by_cases hjr : j < row.length
      · rw [List.getD_append _ _ _ _ hjr, if_pos hjr]
      · rw [List.getD_append_right _ _ _ _ (by omega), if_neg hjr]
        rw [List.getD_eq_getElem _ _ (by simp; omega), List.getElem_replicate]
  · rw [if_neg h]
    constructor
    · simp
      omega
    · intro j hj
      have hjr : j < row.length := by omega
      rw [if_pos hjr]
      rw [List.getD_eq_getElem _ _ (by simp; omega),
          List.getD_eq_getElem _ _ hjr]
      exact List.getElem_take _

/-- Claim C3: for every spectral transform in the sense of the spec and
every input segment, the extracted feature tensor has exactly
`(N_MFCC, MAX_LEN)` shape; where the transform yields fewer than
`MAX_LEN` frames the frame axis is right-padded with zeros, and where it
yields more it is truncated to the first `MAX_LEN` frames. -/
theorem extract_shape (t : List ℚ → List (List ℚ))
    (ht : SpectralTransform t) (seg : List ℚ) :
    (extract t seg).length = N_MFCC ∧
    ∀ i < N_MFCC,
      ((extract t seg).getD i []).length = MAX_LEN ∧
      ∀ j < MAX_LEN,
        ((extract t seg).getD i []).getD j 0 =
          if j < ((t seg).getD i []).length
          then ((t seg).getD i []).getD j 0 else 0 := by
  have hlen : (t seg).length = N_MFCC := ht.1 seg
  constructor
  · simp [extract, hlen]
  · intro i hi
    have hi2 : i < (t seg).length := by omega
    have hrow : (extract t seg).getD i [] = padTruncRow ((t seg).getD i []) := by
      rw [List.getD_eq_getElem _ _ (by simp [extract]; omega),
          List.getD_eq_getElem _ _ hi2]
      simp [extract]
    rw [hrow]
    exact ⟨(padTruncRow_spec _).1, fun j hj => (padTruncRow_spec _).2 j hj⟩

theorem sqTransform_spec : SpectralTransform sqTransform := by
  constructor
  · intro seg
    simp [sqTransform, N_MFCC]
  · intro row h
    simp [sqTransform] at h
    exact h.2

/-- Witness for claim C3 at a closed input. -/
theorem extract_shape_witness :
    SpectralTransform sqTransform ∧
    ((extract sqTransform [1, 2]).length = N_MFCC ∧
    ∀ i < N_MFCC,
      ((extract sqTransform [1, 2]).getD i []).length = MAX_LEN ∧
      ∀ j < MAX_LEN,
        ((extract sqTransform [1, 2]).getD i []).getD j 0 =
          if j < ((sqTransform [1, 2]).getD i []).length
          then ((sqTransform [1, 2]).getD i []).getD j 0 else 0) :=
  ⟨sqTransform_spec, extract_shape sqTransform sqTransform_spec [1, 2]⟩

/-- Claim C7: for every spectral transform in the sense of the spec, an
empty input segment yields the all-zero tensor of target shape
`(N_MFCC, MAX_LEN)` rather than an error. -/
theorem extract_empty_all_zero (t : List ℚ → List (List ℚ))
    (ht : SpectralTransform t) :
    extract t [] = List.replicate N_MFCC (List.replicate MAX_LEN 0) := by
  have h1 : t [] = List.replicate N_MFCC [] :=
    List.eq_replicate_iff.mpr ⟨ht.1 [], ht.2⟩
  rw [extract, h1, List.map_replicate]
  congr 1

/-- Witness for claim C7 at a closed input. -/
theorem extract_empty_all_zero_witness :
    SpectralTransform sqTransform ∧
    extract sqTransform [] = List.replicate N_MFCC (List.replicate MAX_LEN 0) :=
  ⟨sqTransform_spec, extract_empty_all_zero sqTransform sqTransform_spec⟩

/-- Claim C5: with `testFraction = 1/5` and a label group holding 100
examples of label A and 20 of label B, the stratified split holds out
exactly `⌊1/5 * 100⌋ = 20` examples of A and `⌊1/5 * 20⌋ = 4` of B and
trains on the remainder, for every length-preserving seed permutation;
determinism is inherent, the split being a function of its inputs. -/
theorem splitGroup_len {α : Type} (f : ℚ) (g : List α) :
    ((splitGroup f g).2).length =
      min ((Int.floor (f * (g.length : ℚ))).toNat) g.length ∧
    ((splitGroup f g).1).length =
      g.length - (Int.floor (f * (g.length : ℚ))).toNat := by
  constructor <;> simp [splitGroup]

theorem stratifiedSplit_counts {α : Type} (A B : List α)
    (perm : List α → List α)
    (hperm : ∀ l : List α, (perm l).length = l.length)
    (hA : A.length = 100) (hB : B.length = 20) :
    ((splitGroup (1/5 : ℚ) (perm A)).2).length = 20 ∧
    ((splitGroup (1/5 : ℚ) (perm A)).1).length = 80 ∧
    ((splitGroup (1/5 : ℚ) (perm B)).2).length = 4 ∧
    ((splitGroup (1/5 : ℚ) (perm B)).1).length = 16 ∧
    ((stratifiedSplit (1/5 : ℚ) perm [A, B]).2).length = 24 ∧
    ((stratifiedSplit (1/5 : ℚ) perm [A, B]).1).length = 96 := by
  have hpa : (perm A).length = 100 := by rw [hperm, hA]
  have hpb : (perm B).length = 20 := by rw [hperm, hB]
  have hfA : (Int.floor ((1/5 : ℚ) * (((perm A).length : ℕ) : ℚ))).toNat
      = 20 := by
    rw [hpa]
    have h : ((1/5 : ℚ) * ((100 : ℕ) : ℚ)) = ((20 : ℤ) : ℚ) := by norm_num
    rw [h, Int.floor_intCast]
    rfl
  have hfB : (Int.floor ((1/5 : ℚ) * (((perm B).length : ℕ) : ℚ))).toNat
      = 4 := by
    rw [hpb]
    have h : ((1/5 : ℚ) * ((20 : ℕ) : ℚ)) = ((4 : ℤ) : ℚ) := by norm_num
    rw [h, Int.floor_intCast]
    rfl
  have h2A : ((splitGroup (1/5 : ℚ) (perm A)).2).length = 20 := by
    rw [(splitGroup_len (1/5 : ℚ) (perm A)).1, hfA, hpa]
    decide
  have h1A : ((splitGroup (1/5 : ℚ) (perm A)).1).length = 80 := by
    rw [(splitGroup_len (1/5 : ℚ) (perm A)).2, hfA, hpa]
  have h2B : ((splitGroup (1/5 : ℚ) (perm B)).2).length = 4 := by
    rw [(splitGroup_len (1/5 : ℚ) (perm B)).1, hfB, hpb]
    decide
  have h1B : ((splitGroup (1/5 : ℚ) (perm B)).1).length = 16 := by
    rw [(splitGroup_len (1/5 : ℚ) (perm B)).2, hfB, hpb]
  refine ⟨h2A, h1A, h2B, h1B, ?_, ?_⟩
  · simp only [stratifiedSplit, List.map_cons, List.map_nil,
      List.flatten_cons, List.flatten_nil, List.length_append,
      List.length_nil]
    rw [h2A, h2B]
  · simp only [stratifiedSplit, List.map_cons, List.map_nil,
      List.flatten_cons, List.flatten_nil, List.length_append,
      List.length_nil]
    rw [h1A, h1B]

/-- Witness for claim C5 at a closed input. -/
theorem stratifiedSplit_counts_witness :
    ((∀ l : List ℕ, (id l).length = l.length) ∧
      (List.range 100).length = 100 ∧ (List.range 20).length = 20) ∧
    (((splitGroup (1/5 : ℚ) (id (List.range 100))).2).length = 20 ∧
    ((splitGroup (1/5 : ℚ) (id (List.range 100))).1).length = 80 ∧
    ((splitGroup (1/5 : ℚ) (id (List.range 20))).2).length = 4 ∧
    ((splitGroup (1/5 : ℚ) (id (List.range 20))).1).length = 16 ∧
    ((stratifiedSplit (1/5 : ℚ) id [List.range 100, List.range 20]).2).length
      = 24 ∧
    ((stratifiedSplit (1/5 : ℚ) id [List.range 100, List.range 20]).1).length
      = 96) :=
  ⟨⟨fun _ => rfl, by simp, by simp⟩,
    stratifiedSplit_counts (List.range 100) (List.range 20) id
      (fun _ => rfl) (by simp) (by simp)⟩

theorem peakSq_eq_zero (y : List ℚ) (hy : ∀ x ∈ y, x = 0) : peakSq y = 0 := by
  induction y with
  | nil => rfl
  | cons a t ih =>
      have ha : a = 0 := hy a (List.mem_cons_self a t)
      have ht := ih (fun x hx => hy x (List.mem_cons_of_mem a hx))
      simp only [peakSq, List.map_cons, List.foldr_cons] at ht ⊢
      rw [ha, ht]
      simp

theorem frameRuns_all_false : ∀ (bs : List Bool) (i : ℕ),
    (∀ b ∈ bs, b = false) → frameRuns i bs = [] := by
  intro bs
  induction bs with
  | nil => intro i _; rfl
  | cons b rest ih =>
      intro i h
      have hb : b = false := h b (List.mem_cons_self b rest)
      have ht := ih (i + 1) (fun x hx => h x (List.mem_cons_of_mem b hx))
      simp [frameRuns, hb, ht]

/-- Claim C6: for every all-zero waveform and every decibel threshold
`topDb > 0` (carried as the multiplicative ratio `10^(-topDb/10)`, so
`0 < ratio < 1`), the activity detector returns the empty interval list:
the zero-peak floor classifies no frame as active. -/
theorem detect_silent_empty (ratio : ℚ) (frameLen hop : ℕ) (y : List ℚ)
    (hr1 : 0 < ratio) (hr2 : ratio < 1) (hy : ∀ x ∈ y, x = 0) :
    detect ratio frameLen hop y = [] := by
  have _ := hr1
  have _ := hr2
  have hp := peakSq_eq_zero y hy
  have hflags : ∀ b ∈ activeFlags ratio frameLen hop y, b = false := by
    intro b hb
    simp only [activeFlags, List.mem_map] at hb
    obtain ⟨f, _, hf⟩ := hb
    rw [← hf]
    simp [frameActive, hp]
  unfold detect
  rw [frameRuns_all_false _ 0 hflags]
  rfl

/-- Witness for claim C6 at a closed input. -/
theorem detect_silent_empty_witness :
    ((0 : ℚ) < 1/2 ∧ (1/2 : ℚ) < 1 ∧
      ∀ x ∈ ([0, 0, 0] : List ℚ), x = 0) ∧
    detect (1/2) 2048 512 [0, 0, 0] = [] :=
  ⟨⟨by norm_num, by norm_num, by decide⟩,
    detect_silent_empty (1/2) 2048 512 [0, 0, 0]
      (by norm_num) (by norm_num) (by decide)⟩

theorem processOne_eq (split : List ℚ → List (ℕ × ℕ)) (m : Policy)
    (d : ℚ) (y : List ℚ) (hd : 0 < d) :
    processOne split m d y =
      if prepareProcessed m d y (split y) = [] then none
      else some (prepareProcessed m d y (split y)) := by
  by_cases hlen : (split y).length = 0
  · simp [processOne, prepareProcessed, hlen]
  · by_cases hdur :
        ((selectSegment m y (split y)).length : ℚ) / (SAMPLE_RATE : ℚ) < d
    · simp [processOne, prepareProcessed, hlen, hdur]
    · have hne2 : selectSegment m y (split y) ≠ [] := by
        intro hnil
        apply hdur
        rw [hnil]
        simpa using hd
      simp [processOne, prepareProcessed, hlen, hdur, hne2]

/-- Claim C9: for every positive minimum duration, the batch loop keeps
exactly the clips whose selected segment is non-empty — a clip rejected
by the admission rule (or with no detected activity) is excluded from the
produced dataset, and no empty segment ever reaches feature extraction. -/
theorem processLabel_skips_rejected (split : List ℚ → List (ℕ × ℕ))
    (m : Policy) (d : ℚ) (hd : 0 < d) (ys : List (List ℚ)) :
    processLabel split m d ys =
      (ys.map (fun y => prepareProcessed m d y (split y))).filter
        (fun s => !s.isEmpty) ∧
    ∀ s ∈ processLabel split m d ys, s ≠ [] := by
  have hmain : processLabel split m d ys =
      (ys.map (fun y => prepareProcessed m d y (split y))).filter
        (fun s => !s.isEmpty) := by
    induction ys with
    | nil => rfl
    | cons y t ih =>
        simp only [processLabel, List.filterMap_cons, List.map_cons,
          List.filter_cons] at ih ⊢
        rw [processOne_eq split m d y hd]
        by_cases hnil : prepareProcessed m d y (split y) = []
        · rw [if_pos hnil, hnil]
          simpa using ih
        · rw [if_neg hnil]
          have : (!(prepareProcessed m d y (split y)).isEmpty) = true := by
            simpa using hnil
          rw [this]
          simpa using congrArg
            (List.cons (prepareProcessed m d y (split y))) ih
  refine ⟨hmain, ?_⟩
  intro s hs
  rw [hmain] at hs
  have := List.of_mem_filter hs
  simpa using this

/-- Witness for claim C9 at a closed input. -/
theorem processLabel_skips_rejected_witness :
    (0 : ℚ) < 1 ∧
    (processLabel (fun _ => [(0, 2)]) Policy.longest 1 [[1, 1]] =
      (([[1, 1]] : List (List ℚ)).map
        (fun y => prepareProcessed Policy.longest 1 y [(0, 2)])).filter
        (fun s => !s.isEmpty) ∧
    ∀ s ∈ processLabel (fun _ => [(0, 2)]) Policy.longest 1 [[1, 1]],
      s ≠ []) :=
  ⟨by norm_num,
    processLabel_skips_rejected (fun _ => [(0, 2)]) Policy.longest 1
      (by norm_num) [[1, 1]]⟩

theorem frameRuns_strong : ∀ (bs : List Bool) (i : ℕ),
    (∀ p ∈ frameRuns i bs, i ≤ p.1 ∧ p.1 < p.2 ∧ p.2 ≤ i + bs.length) ∧
    (frameRuns i bs).Pairwise (fun p q : ℕ × ℕ => p.2 < q.1) := by
  intro bs
  induction bs with
  | nil =>
      intro i
      constructor
      · intro p hp
        simp [frameRuns] at hp
      · simp [frameRuns]
  | cons b rest ih =>
      intro i
      obtain ⟨ihb, ihp⟩ := ih (i + 1)
      by_cases hb : b = true
      · subst hb
        cases hr : frameRuns (i + 1) rest with
        | nil =>
            have hred : frameRuns i (true :: rest) = [(i, i + 1)] := by
              simp [frameRuns, hr]
            constructor
            · intro p hp
              rw [hred] at hp
              simp at hp
              subst hp
              simp
            · rw [hred]
              simp
        | cons hd tl =>
            obtain ⟨s, e⟩ := hd
            rw [hr] at ihb ihp
            have hse := ihb (s, e) (List.mem_cons_self _ _)
            rw [List.pairwise_cons] at ihp
            obtain ⟨hrel, htlp⟩ := ihp
            by_cases hs : s = i + 1
            · have hred : frameRuns i (true :: rest) = (i, e) :: tl := by
                simp [frameRuns, hr, hs]
              constructor
              · intro p hp
                rw [hred] at hp
                rcases List.mem_cons.mp hp with heq | hmem
                · subst heq
                  simp at hse ⊢
                  omega
                · have hm := ihb p (List.mem_cons_of_mem _ hmem)
                  simp at hm ⊢
                  omega
              · rw [hred, List.pairwise_cons]
                exact ⟨fun q hq => hrel q hq, htlp⟩
            · have hred : frameRuns i (true :: rest) =
                  (i, i + 1) :: (s, e) :: tl := by
                simp [frameRuns, hr, hs]
              constructor
              · intro p hp
                rw [hred] at hp
                rcases List.mem_cons.mp hp with heq | hmem
                · subst heq
                  simp
                · have hm := ihb p hmem
                  simp at hm ⊢
                  omega
              · rw [hred, List.pairwise_cons]
                constructor
                · intro q hq
                  rcases List.mem_cons.mp hq with heq | hmem
                  · subst heq
                    simp at hse ⊢
                    omega
                  · have := hrel q hmem
                    simp at hse ⊢
                    omega
                · rw [List.pairwise_cons]
                  exact ⟨fun q hq => hrel q hq, htlp⟩
      · have hb2 : b = false := by
          cases b
          · rfl
          · exact absurd rfl hb
        subst hb2
        have hred : frameRuns i (false :: rest) = frameRuns (i + 1) rest := by
          simp [frameRuns]
        constructor
        · intro p hp
          rw [hred] at hp
          have hm := ihb p hp
          simp
          omega
        · rw [hred]
          exact ihp

theorem mul_lt_of_lt_numFrames {hop s n : ℕ} (hhop : 0 < hop)
    (hs : s < numFrames hop n) : s * hop < n := by
  unfold numFrames at hs
  have h2 : (s + 1) * hop ≤ n + hop - 1 :=
    (Nat.le_div_iff_mul_le hhop).mp hs
  have h3 : s * hop + hop ≤ n + hop - 1 := by
    calc s * hop + hop = (s + 1) * hop := by ring
    _ ≤ n + hop - 1 := h2
  have h4 : 0 < hop := hhop
  generalize s * hop = t at h3 ⊢
  omega

/-- Claim C8: for every waveform and positive hop, every interval
returned by the activity detector satisfies `start < end ≤ len(waveform)`
(starts are naturals, hence `0 ≤ start`), and the returned list is
strictly ordered by start position with no two intervals overlapping. -/
theorem detect_intervals_wf (ratio : ℚ) (frameLen hop : ℕ) (y : List ℚ)
    (hhop : 0 < hop) :
    (∀ p ∈ detect ratio frameLen hop y, p.1 < p.2 ∧ p.2 ≤ y.length) ∧
    (detect ratio frameLen hop y).Pairwise
      (fun p q : ℕ × ℕ => p.1 < q.1 ∧ p.2 ≤ q.1) := by
  obtain ⟨hb, hp⟩ := frameRuns_strong (activeFlags ratio frameLen hop y) 0
  have hlen : (activeFlags ratio frameLen hop y).length =
      numFrames hop y.length := by
    simp [activeFlags]
  rw [hlen] at hb
  constructor
  · intro p hpm
    simp only [detect, List.mem_map] at hpm
    obtain ⟨q, hq, hpq⟩ := hpm
    obtain ⟨h1, h2, h3⟩ := hb q hq
    have hq1 : q.1 * hop < y.length :=
      mul_lt_of_lt_numFrames hhop (by omega)
    have hq2 : q.1 * hop < q.2 * hop := by
      have := (mul_lt_mul_right (show 0 < hop from hhop)).mpr h2
      exact this
    rw [← hpq]
    constructor
    · exact Nat.lt_min.mpr ⟨hq2, hq1⟩
    · exact min_le_right _ _
  · have hp2 : (frameRuns 0 (activeFlags ratio frameLen hop y)).Pairwise
        (fun p q : ℕ × ℕ => p.1 < p.2 ∧ p.2 < q.1) := by
      apply hp.imp_of_mem
      intro a c ha hc hr
      exact ⟨(hb a ha).2.1, hr⟩
    rw [detect, List.pairwise_map]
    apply hp2.imp
    intro a c hr
    constructor
    · exact (mul_lt_mul_right (show 0 < hop from hhop)).mpr (by omega)
    · exact le_trans (min_le_left _ _)
        ((mul_le_mul_right (show 0 < hop from hhop)).mpr (by omega))

/-- Witness for claim C8 at a closed input. -/
theorem detect_intervals_wf_witness :
    0 < 512 ∧
    ((∀ p ∈ detect (1/2) 2048 512 sampleWave,
        p.1 < p.2 ∧ p.2 ≤ sampleWave.length) ∧
    (detect (1/2) 2048 512 sampleWave).Pairwise
      (fun p q : ℕ × ℕ => p.1 < q.1 ∧ p.2 ≤ q.1)) :=
  ⟨by decide, detect_intervals_wf (1/2) 2048 512 sampleWave (by decide)⟩

end VoicePipeline
